import Mathlib

/-!
Verification of the utility module of the lm-snn training code
(src/code/train/util.py) against its natural-language specification.

Python integers are modelled as Lean integers (`Int`); for a positive
divisor, Python floor division and modulo agree with Lean integer
division and modulo (`Int.ediv` / `Int.emod`).  Python strings are
modelled as lists of characters (`List Char`), with the string method
join modelled by `List.intercalate`.  Real-valued numpy code is
modelled over the exact reals `ℝ`; numpy arrays of bytes are modelled
as lists of natural numbers reduced mod 256 (dtype uint8).
-/

namespace LmSnn

open scoped Matrix

/-- Python strings are modelled as lists of characters. -/
abbrev PyStr := List Char

/-! ### Lattice / mesh adjacency (util.py, is_lattice_connection / get_neighbors /
get_mesh_neighbors) -/

/-- Embedding of util.py is_lattice_connection.  The boolean expression of
each branch keeps the grouping imposed by Python operator precedence
(and binds tighter than or).  A lattice tag that matches none of the four
recognised strings makes the Python function fall through and return None,
which is falsy in boolean context; this is modelled by the final false. -/
def is_lattice_connection (sqrt i j : Int) (lattice_structure : PyStr) : Bool :=
  if lattice_structure = "none".data then false
  else if lattice_structure = "4".data then
    (i + 1 == j && j % sqrt != 0) || (i - 1 == j && i % sqrt != 0) ||
      (i + sqrt == j) || (i - sqrt == j)
  else if lattice_structure = "8".data then
    (i + 1 == j && j % sqrt != 0) || (i - 1 == j && i % sqrt != 0) ||
      (i + sqrt == j) || (i - sqrt == j) ||
      (i + sqrt == j + 1 && j % sqrt != 0) || (i + sqrt == j - 1 && i % sqrt != 0) ||
      (i - sqrt == j + 1 && i % sqrt != 0) || (i - sqrt == j - 1 && j % sqrt != 0)
  else if lattice_structure = "all".data then true
  else false

/-- Candidate neighbour offsets shared by get_neighbors and
get_mesh_neighbors, in the fixed enumeration order of the source. -/
def neighbor_candidates (i j : Int) : List (Int × Int) :=
  [(i + 1, j), (i - 1, j), (i, j + 1), (i, j - 1), (i + 1, j + 1),
    (i + 1, j - 1), (i - 1, j + 1), (i - 1, j - 1)]

/-- Embedding of util.py get_neighbors: filter the eight candidate
offsets through is_lattice_connection with the fixed tag "8" and the
flattened-index range check, then map back to flattened indices. -/
def get_neighbors (n sqrt : Int) : List Int :=
  let i := n / sqrt
  let j := n % sqrt
  ((neighbor_candidates i j).filter fun p =>
      is_lattice_connection sqrt (i * sqrt + j) (p.1 * sqrt + p.2) "8".data &&
        decide (0 ≤ p.1 * sqrt + p.2) && decide (p.1 * sqrt + p.2 < sqrt ^ 2)).map
    fun p => p.1 * sqrt + p.2

/-- Embedding of util.py get_mesh_neighbors: identical to get_neighbors
except that the lattice tag is supplied by the caller (the Python code
applies str to it; the model takes the already-stringified tag). -/
def get_mesh_neighbors (n sqrt : Int) (lattice : PyStr) : List Int :=
  let i := n / sqrt
  let j := n % sqrt
  ((neighbor_candidates i j).filter fun p =>
      is_lattice_connection sqrt (i * sqrt + j) (p.1 * sqrt + p.2) lattice &&
        decide (0 ≤ p.1 * sqrt + p.2) && decide (p.1 * sqrt + p.2 < sqrt ^ 2)).map
    fun p => p.1 * sqrt + p.2

/-- C2: evaluation of get_neighbors at the failing input of the claim.
The claim states that get_neighbors(4, 3) returns all eight surrounding
indices {0,1,2,3,5,6,7,8} of the centre cell of a 3x3 grid; the code
instead returns [7, 1, 5, 3, 8, 2, 0], omitting index 6, because the
down-left diagonal branch of is_lattice_connection guards the row wrap
with j % sqrt != 0 where the geometric intent requires i % sqrt != 0. -/
theorem get_neighbors_center_3x3 : get_neighbors 4 3 = [7, 1, 5, 3, 8, 2, 0] := by
  decide

/-- C10: for every node index n and grid side length sqrt >= 1,
get_neighbors n sqrt returns the same list (same elements, same order) as
get_mesh_neighbors n sqrt lattice when the lattice tag stringifies
to "8"; the two bodies are identical with the tag instantiated. -/
theorem get_neighbors_eq_mesh_eight (n sqrt : Int) (hsqrt : 1 ≤ sqrt) :
    get_neighbors n sqrt = get_mesh_neighbors n sqrt "8".data := rfl

/-- Witness for C10: instantiation at the centre node of the 3x3 grid. -/
theorem get_neighbors_eq_mesh_eight_witness :
    (1 : Int) ≤ 3 ∧ get_neighbors 4 3 = get_mesh_neighbors 4 3 "8".data :=
  ⟨by decide, get_neighbors_eq_mesh_eight 4 3 (by decide)⟩

/-! ### Ricker wavelet (util.py, mhat) -/

/-- Embedding of util.py mhat over the exact reals.  The source computes
scale * (2 / (sqrt(3 * sigma) * pi ** 0.25)) * (1 - (t / sigma)^2)
* exp(-(t^2) / (2 * sigma^2)) + shift, takes the minimum with max_excite,
then the maximum with max_inhib, and finally negates the clamped value. -/
noncomputable def mhat (t : ℝ) (sigma scale shift max_excite max_inhib : ℝ) : ℝ :=
  -(max (min (scale * (2 / (Real.sqrt (3 * sigma) * Real.pi ^ ((0.25 : ℝ)))) *
        (1 - (t / sigma) ^ 2) * Real.exp (-(t ^ 2) / (2 * sigma ^ 2)) + shift)
      max_excite) max_inhib)

/-- Counterexample for C1: at t = 0, sigma = 1, scale = 1, shift = 100,
max_excite = 10, max_inhib = 0, the inner expression exceeds max_excite,
the clamp saturates at 10, and the final negation returns -10, which
falls below max_inhib = 0.  The clamp bounds therefore do not apply to
the returned value itself. -/
theorem mhat_below_max_inhib : mhat 0 1 1 100 10 0 < 0 := by
  have hc : 0 < 2 / (Real.sqrt (3 * 1) * Real.pi ^ ((0.25 : ℝ))) := by
    apply div_pos (by norm_num)
    exact mul_pos (Real.sqrt_pos.mpr (by norm_num))
      (Real.rpow_pos_of_pos Real.pi_pos _)
  have hinner : (10 : ℝ) ≤ 1 * (2 / (Real.sqrt (3 * 1) * Real.pi ^ ((0.25 : ℝ)))) *
      (1 - ((0 : ℝ) / 1) ^ 2) * Real.exp (-((0 : ℝ) ^ 2) / (2 * 1 ^ 2)) + 100 := by
    simp only [zero_div, zero_pow, ne_eq, OfNat.ofNat_ne_zero, not_false_iff, sub_zero,
      one_mul, mul_one, neg_zero, Real.exp_zero]
    nlinarith
  unfold mhat
  rw [min_eq_right hinner, max_eq_left (by norm_num : (0 : ℝ) ≤ 10)]
  norm_num

/-- C1 (amended): whenever max_inhib <= max_excite, the value returned by
mhat lies between -max_excite and -max_inhib: the clamp applies to the
value before the final negation, so the returned value is the negation of
a quantity clamped between max_inhib and max_excite. -/
theorem mhat_clamped_neg (t sigma scale shift max_excite max_inhib : ℝ)
    (h : max_inhib ≤ max_excite) :
    -max_excite ≤ mhat t sigma scale shift max_excite max_inhib ∧
      mhat t sigma scale shift max_excite max_inhib ≤ -max_inhib := by
  unfold mhat
  constructor
  · apply neg_le_neg
    exact max_le (min_le_right _ _) h
  · apply neg_le_neg
    exact le_max_right _ _

/-- Witness for C1 (amended): instantiation at t = 0, sigma = 1, scale = 1,
shift = 0, max_excite = 1, max_inhib = -1. -/
theorem mhat_clamped_neg_witness :
    (-1 : ℝ) ≤ 1 ∧ (-(1 : ℝ) ≤ mhat 0 1 1 0 1 (-1) ∧ mhat 0 1 1 0 1 (-1) ≤ -(-1 : ℝ)) :=
  ⟨by norm_num, mhat_clamped_neg 0 1 1 0 1 (-1) (by norm_num)⟩

/-! ### Cache-key derivation (util.py, get_labeled_data, lines 98-104) -/

/-- Decimal rendering of a natural number, modelling Python str on the
class ids and on examples_per_class. -/
def natRepr (k : Nat) : PyStr :=
  if k = 0 then ['0'] else ((Nat.digits 10 k).map Nat.digitChar).reverse

/-- Left inverse of natRepr: reads a decimal string back to a number. -/
def natUnrepr (s : PyStr) : Nat :=
  Nat.ofDigits 10 (s.reverse.map fun c => c.toNat - 48)

/-- Embedding of the cache-key derivation of util.py get_labeled_data:
if reduced_dataset, join the base name, the literal "reduced", the
underscore-joined class list and the per-class count with underscores;
otherwise, if normalized_inputs, append the literal suffix; otherwise
keep the base name.  The constant ".pickle" extension appended by the
source when touching the file system is omitted: it is the same for all
calls and cannot affect key collisions. -/
def derive_pickle_name (pickle_name : PyStr) (reduced_dataset : Bool)
    (classes : List Nat) (examples_per_class : Nat) (normalized_inputs : Bool) : PyStr :=
  if reduced_dataset then
    List.intercalate ['_'] [pickle_name, "reduced".data,
      List.intercalate ['_'] (classes.map natRepr), natRepr examples_per_class]
  else if normalized_inputs then
    List.intercalate ['_'] [pickle_name, "normalized_inputs".data]
  else pickle_name

/-- Every digit below 10 renders to a character that decodes back. -/
theorem natUnrepr_digitChar {d : Nat} (h : d < 10) : (Nat.digitChar d).toNat - 48 = d := by
  interval_cases d <;> rfl

/-- Decoding is a left inverse of decimal rendering. -/
theorem natUnrepr_natRepr (k : Nat) : natUnrepr (natRepr k) = k := by
  unfold natRepr natUnrepr
  by_cases hk : k = 0
  · subst hk; rfl
  · rw [if_neg hk, List.reverse_reverse, List.map_map]
    have : (Nat.digits 10 k).map ((fun c => c.toNat - 48) ∘ Nat.digitChar) =
        Nat.digits 10 k := by
      apply List.map_congr_left ?_ |>.trans (List.map_id _)
      intro d hd
      exact natUnrepr_digitChar (Nat.digits_lt_base (by norm_num) hd)
    rw [this, Nat.ofDigits_digits]

/-- Decimal rendering is injective. -/
theorem natRepr_injective : Function.Injective natRepr :=
  Function.LeftInverse.injective natUnrepr_natRepr

/-- Decimal renderings are never empty. -/
theorem natRepr_ne_nil (k : Nat) : natRepr k ≠ [] := by
  unfold natRepr
  by_cases hk : k = 0
  · subst hk; simp
  · rw [if_neg hk]
    simp [Nat.digits_ne_nil_iff_ne_zero.mpr hk]

/-- Decimal renderings never contain an underscore. -/
theorem underscore_not_mem_natRepr (k : Nat) : '_' ∉ natRepr k := by
  unfold natRepr
  by_cases hk : k = 0
  · subst hk; simp
  · rw [if_neg hk]
    intro hmem
    rw [List.mem_reverse] at hmem
    obtain ⟨d, hd, hchar⟩ := List.mem_map.mp hmem
    have hlt := Nat.digits_lt_base (by norm_num) hd
    interval_cases d <;> exact absurd hchar (by decide)

/-- Unfolding of intercalate on a two-or-more-element list. -/
theorem intercalate_cons₂ (a b : PyStr) (rest : List PyStr) :
    List.intercalate ['_'] (a :: b :: rest) = a ++ '_' :: List.intercalate ['_'] (b :: rest) := by
  simp [List.intercalate, List.intersperse_cons_cons]

/-- Unfolding of intercalate on a one-element list. -/
theorem intercalate_single (a : PyStr) : List.intercalate ['_'] [a] = a := by
  simp [List.intercalate, List.intersperse]

/-- Unfolding of intercalate on a cons whose tail is nonempty. -/
theorem intercalate_cons_ne_nil (a : PyStr) {rest : List PyStr} (h : rest ≠ []) :
    List.intercalate ['_'] (a :: rest) = a ++ '_' :: List.intercalate ['_'] rest := by
  obtain ⟨b, rs, rfl⟩ := List.exists_cons_of_ne_nil h
  exact intercalate_cons₂ a b rs

/-- Appending one final part to a nonempty intercalation. -/
theorem intercalate_append_singleton {C : List PyStr} (hC : C ≠ []) (b : PyStr) :
    List.intercalate ['_'] (C ++ [b]) = List.intercalate ['_'] C ++ '_' :: b := by
  induction C with
  | nil => exact absurd rfl hC
  | cons c cs ih =>
    cases cs with
    | nil => simp [intercalate_cons₂, intercalate_single]
    | cons c2 cs2 =>
      have key : List.intercalate ['_'] ((c2 :: cs2) ++ [b]) =
          List.intercalate ['_'] (c2 :: cs2) ++ '_' :: b := ih (by simp)
      have hsplit : (c :: c2 :: cs2) ++ [b] = c :: ((c2 :: cs2) ++ [b]) := rfl
      rw [hsplit, intercalate_cons_ne_nil c (by simp), key, intercalate_cons₂]
      simp

/-- Token list of the reduced-dataset cache key after the base name:
the literal "reduced", the rendered class ids (a single empty token when
the class list is empty, since joining an empty list yields the empty
string), and the rendered per-class count. -/
def reducedTail (classes : List Nat) (examples_per_class : Nat) : List PyStr :=
  "reduced".data ::
    ((if classes = [] then [([] : PyStr)] else classes.map natRepr) ++
      [natRepr examples_per_class])

/-- Every reduced-dataset cache key is the base name, an underscore, and
the intercalation of its token list. -/
theorem derive_reduced_eq (base : PyStr) (C : List Nat) (E : Nat) (nrm : Bool) :
    derive_pickle_name base true C E nrm =
      base ++ '_' :: List.intercalate ['_'] (reducedTail C E) := by
  have h4 : derive_pickle_name base true C E nrm =
      List.intercalate ['_'] [base, "reduced".data,
        List.intercalate ['_'] (C.map natRepr), natRepr E] := by
    simp [derive_pickle_name]
  suffices hs : List.intercalate ['_'] ["reduced".data,
      List.intercalate ['_'] (C.map natRepr), natRepr E] =
      List.intercalate ['_'] (reducedTail C E) by
    rw [h4, intercalate_cons₂, hs]
  by_cases hC : C = []
  · subst hC; rfl
  · obtain ⟨c, cs, rfl⟩ := List.exists_cons_of_ne_nil hC
    have lhs : List.intercalate ['_'] ["reduced".data,
        List.intercalate ['_'] ((c :: cs).map natRepr), natRepr E] =
        "reduced".data ++ '_' ::
          (List.intercalate ['_'] ((c :: cs).map natRepr) ++ '_' :: natRepr E) := by
      rw [intercalate_cons₂, intercalate_cons₂, intercalate_single]
    have rhs : List.intercalate ['_'] (reducedTail (c :: cs) E) =
        "reduced".data ++ '_' ::
          (List.intercalate ['_'] ((c :: cs).map natRepr) ++ '_' :: natRepr E) := by
      unfold reducedTail
      rw [if_neg hC, intercalate_cons_ne_nil _ (by simp),
        intercalate_append_singleton (by simp)]
    rw [lhs, rhs]

/-- No token of a reduced-dataset key contains an underscore. -/
theorem reducedTail_underscore_free (C : List Nat) (E : Nat) :
    ∀ l ∈ reducedTail C E, '_' ∉ l := by
  intro l hl
  unfold reducedTail at hl
  rcases List.mem_cons.mp hl with h | h
  · subst h; decide
  · rcases List.mem_append.mp h with h | h
    · by_cases hC : C = []
      · rw [if_pos hC] at h
        simp only [List.mem_singleton] at h
        subst h; simp
      · rw [if_neg hC] at h
        obtain ⟨k, _, rfl⟩ := List.mem_map.mp h
        exact underscore_not_mem_natRepr k
    · simp only [List.mem_singleton] at h
      subst h
      exact underscore_not_mem_natRepr E

/-- The token list of a reduced-dataset key is recovered from the key by
splitting on underscores. -/
theorem reducedTail_recover (C : List Nat) (E : Nat) :
    (List.intercalate ['_'] (reducedTail C E)).splitOn '_' = reducedTail C E :=
  List.splitOn_intercalate (reducedTail C E) '_' (reducedTail_underscore_free C E)
    (by simp [reducedTail])

/-- The token list determines the class list and the per-class count. -/
theorem reducedTail_injective {C₁ C₂ : List Nat} {E₁ E₂ : Nat}
    (h : reducedTail C₁ E₁ = reducedTail C₂ E₂) : C₁ = C₂ ∧ E₁ = E₂ := by
  unfold reducedTail at h
  rw [List.cons.injEq] at h
  obtain ⟨hA, hE⟩ := List.append_inj' h.2 rfl
  refine ⟨?_, natRepr_injective (List.singleton_injective hE)⟩
  by_cases h1 : C₁ = [] <;> by_cases h2 : C₂ = []
  · rw [h1, h2]
  · rw [if_pos h1, if_neg h2] at hA
    obtain ⟨c, cs, rfl⟩ := List.exists_cons_of_ne_nil h2
    rw [List.map_cons] at hA
    simp only [List.cons.injEq] at hA
    exact absurd hA.1.symm (natRepr_ne_nil c)
  · rw [if_neg h1, if_pos h2] at hA
    obtain ⟨c, cs, rfl⟩ := List.exists_cons_of_ne_nil h1
    rw [List.map_cons] at hA
    simp only [List.cons.injEq] at hA
    exact absurd hA.1 (natRepr_ne_nil c)
  · rw [if_neg h1, if_neg h2] at hA
    exact List.map_injective_iff.mpr natRepr_injective hA

/-- Reduced-dataset keys are longer than the base name. -/
theorem derive_reduced_ne_base (base : PyStr) (C : List Nat) (E : Nat) (nrm : Bool) :
    derive_pickle_name base true C E nrm ≠ base := by
  rw [derive_reduced_eq]
  intro h
  have := congrArg List.length h
  simp only [List.length_append, List.length_cons] at this
  omega

/-- Normalized-inputs keys are longer than the base name. -/
theorem derive_normalized_ne_base (base : PyStr) :
    List.intercalate ['_'] [base, "normalized_inputs".data] ≠ base := by
  rw [intercalate_cons₂, intercalate_single]
  intro h
  have := congrArg List.length h
  simp only [List.length_append, List.length_cons] at this
  omega

/-- Reduced-dataset keys and normalized-inputs keys never collide: after
the shared base name and underscore, one continues with "reduced" and the
other with "normalized_inputs". -/
theorem derive_reduced_ne_normalized (base : PyStr) (C : List Nat) (E : Nat) (nrm : Bool) :
    derive_pickle_name base true C E nrm ≠
      List.intercalate ['_'] [base, "normalized_inputs".data] := by
  rw [derive_reduced_eq, intercalate_cons₂, intercalate_single]
  intro h
  have h2 : List.intercalate ['_'] (reducedTail C E) = "normalized_inputs".data :=
    (List.cons.injEq _ _ _ _).mp (List.append_cancel_left h) |>.2
  unfold reducedTail at h2
  rw [intercalate_cons_ne_nil _ (by simp)] at h2
  have h3 : ('r' : Char) = 'n' := (List.cons.injEq _ _ _ _).mp h2 |>.1
  exact absurd h3 (by decide)

/-- C3 counterexample: two calls with the same base name whose option
combinations differ (normalized_inputs true versus false) derive the same
cache file name when reduced_dataset is set, because the reduced branch
ignores normalized_inputs entirely. -/
theorem derive_pickle_name_collision :
    derive_pickle_name "mnist".data true [0] 1 true =
        derive_pickle_name "mnist".data true [0] 1 false ∧
      (true : Bool) ≠ false :=
  ⟨rfl, by decide⟩

/-- C3 (amended): complete characterisation of cache-key collisions for a
fixed base name.  Two derived names coincide exactly when the
reduced_dataset flags agree, the class list and per-class count agree
whenever reduced_dataset is set, and the normalized_inputs flags agree
whenever reduced_dataset is not set.  In particular the derivation is
injective in all four options except that normalized_inputs is ignored
when reduced_dataset is true. -/
theorem derive_pickle_name_eq_iff (base : PyStr) (r₁ r₂ n₁ n₂ : Bool)
    (C₁ C₂ : List Nat) (E₁ E₂ : Nat) :
    derive_pickle_name base r₁ C₁ E₁ n₁ = derive_pickle_name base r₂ C₂ E₂ n₂ ↔
      (r₁ = r₂ ∧ (r₁ = true → C₁ = C₂ ∧ E₁ = E₂) ∧ (r₁ = false → n₁ = n₂)) := by
  cases r₁ with
  | true =>
    cases r₂ with
    | true =>
      constructor
      · intro h
        rw [derive_reduced_eq, derive_reduced_eq] at h
        have h1 := (List.cons.injEq _ _ _ _).mp (List.append_cancel_left h) |>.2
        have h2 : reducedTail C₁ E₁ = reducedTail C₂ E₂ := by
          calc reducedTail C₁ E₁
              = (List.intercalate ['_'] (reducedTail C₁ E₁)).splitOn '_' :=
                (reducedTail_recover _ _).symm
            _ = (List.intercalate ['_'] (reducedTail C₂ E₂)).splitOn '_' := by rw [h1]
            _ = reducedTail C₂ E₂ := reducedTail_recover _ _
        obtain ⟨hC, hE⟩ := reducedTail_injective h2
        exact ⟨rfl, fun _ => ⟨hC, hE⟩, fun hf => nomatch hf⟩
      · rintro ⟨-, h, -⟩
        obtain ⟨hC, hE⟩ := h rfl
        rw [derive_reduced_eq, derive_reduced_eq, hC, hE]
    | false =>
      constructor
      · intro h
        exfalso
        by_cases hn : n₂ = true
        · subst hn
          have h2 : derive_pickle_name base false C₂ E₂ true =
              List.intercalate ['_'] [base, "normalized_inputs".data] := by
            simp [derive_pickle_name]
          rw [h2] at h
          exact derive_reduced_ne_normalized base C₁ E₁ n₁ h
        · rw [Bool.not_eq_true] at hn
          subst hn
          have h2 : derive_pickle_name base false C₂ E₂ false = base := by
            simp [derive_pickle_name]
          rw [h2] at h
          exact derive_reduced_ne_base base C₁ E₁ n₁ h
      · rintro ⟨h, -, -⟩
        exact absurd h (by decide)
  | false =>
    cases r₂ with
    | true =>
      constructor
      · intro h
        exfalso
        by_cases hn : n₁ = true
        · subst hn
          have h2 : derive_pickle_name base false C₁ E₁ true =
              List.intercalate ['_'] [base, "normalized_inputs".data] := by
            simp [derive_pickle_name]
          rw [h2] at h
          exact derive_reduced_ne_normalized base C₂ E₂ n₂ h.symm
        · rw [Bool.not_eq_true] at hn
          subst hn
          have h2 : derive_pickle_name base false C₁ E₁ false = base := by
            simp [derive_pickle_name]
          rw [h2] at h
          exact derive_reduced_ne_base base C₂ E₂ n₂ h.symm
      · rintro ⟨h, -, -⟩
        exact absurd h (by decide)
    | false =>
      have hff : ∀ (C : List Nat) (E : Nat),
          derive_pickle_name base false C E false = base := by
        intro C E; simp [derive_pickle_name]
      have hft : ∀ (C : List Nat) (E : Nat),
          derive_pickle_name base false C E true =
            List.intercalate ['_'] [base, "normalized_inputs".data] := by
        intro C E; simp [derive_pickle_name]
      cases n₁ with
      | false =>
        cases n₂ with
        | false =>
          rw [hff, hff]
          exact ⟨fun _ => ⟨rfl, fun hf => absurd hf (by decide), fun _ => rfl⟩, fun _ => rfl⟩
        | true =>
          rw [hff, hft]
          refine ⟨fun h => absurd h.symm (derive_normalized_ne_base base), ?_⟩
          rintro ⟨-, -, h⟩
          exact nomatch h rfl
      | true =>
        cases n₂ with
        | false =>
          rw [hft, hff]
          refine ⟨fun h => absurd h (derive_normalized_ne_base base), ?_⟩
          rintro ⟨-, -, h⟩
          exact nomatch h rfl
        | true =>
          rw [hft, hft]
          exact ⟨fun _ => ⟨rfl, fun hf => absurd hf (by decide), fun _ => rfl⟩, fun _ => rfl⟩

/-! ### MNIST binary parsing and the cache-miss path of get_labeled_data -/

/-- Reading one unsigned byte from a byte stream modelled as a list of
naturals; positions past the end read as zero, and values are reduced
mod 256 so that every read is a byte. -/
def readByte (bs : List Nat) (off : Nat) : Nat := bs.getD off 0 % 256

/-- Reading a 4-byte big-endian unsigned integer, modelling
struct.unpack of the format ">I". -/
def readBE32 (bs : List Nat) (off : Nat) : Nat :=
  ((readByte bs off * 256 + readByte bs (off + 1)) * 256 + readByte bs (off + 2)) * 256 +
    readByte bs (off + 3)

/-- The dataset bundle assembled by get_labeled_data: pixel array x of
shape (N, rows, cols), label array y of shape (N, 1) modelled as a flat
list, and the row and column counts. -/
structure MNISTData where
  x : List (List (List Nat))
  y : List Nat
  rows : Nat
  cols : Nat
deriving DecidableEq

/-- The message of the data-integrity error raised by get_labeled_data. -/
def mismatch_msg : String := "number of labels did not match the number of images"

/-- Embedding of util.py get_labeled_data.  The cache is modelled as a
lookup function from derived names to previously pickled bundles; the
returned pair carries the bundle and the cache write performed (none on a
hit).  On a miss the two binary files are parsed: the image header bytes
4-7, 8-11 and 12-15 hold the big-endian image count, row count and
column count, the label header bytes 4-7 hold the big-endian label
count, and the data-integrity error is raised exactly when the two
counts differ.  Pixel i, r, c sits at image-file offset
16 + (i * rows + r) * cols + c and label i at label-file offset 8 + i.
The in-place reduced-dataset and normalized-inputs post-transforms of
the source (a numpy-RNG shuffle and a float renormalisation) are outside
the scope of the claims on this function and are not applied to the
returned bundle; the reduced label synthesis is modelled separately by
reduced_labels.  Neither transform can raise the data-integrity error,
which is raised before they run. -/
def get_labeled_data (pickle_name : PyStr) (reduced_dataset : Bool) (classes : List Nat)
    (examples_per_class : Nat) (normalized_inputs : Bool)
    (cache : PyStr → Option MNISTData) (images labels : List Nat) :
    Except String (MNISTData × Option (PyStr × MNISTData)) :=
  let key := derive_pickle_name pickle_name reduced_dataset classes
    examples_per_class normalized_inputs
  match cache key with
  | some d => .ok (d, none)
  | none =>
    let number_of_images := readBE32 images 4
    let rows := readBE32 images 8
    let cols := readBE32 images 12
    let N := readBE32 labels 4
    if number_of_images ≠ N then .error mismatch_msg
    else
      let x := (List.range N).map fun i => (List.range rows).map fun r =>
        (List.range cols).map fun c => readByte images (16 + (i * rows + r) * cols + c)
      let y := (List.range N).map fun i => readByte labels (8 + i)
      let d : MNISTData := ⟨x, y, rows, cols⟩
      .ok (d, some (key, d))

/-- Embedding of the reduced-dataset label synthesis of get_labeled_data:
numpy array of label // examples_per_class for label in
range(examples_per_class * len(classes)), with dtype uint8, so each
entry is reduced mod 256. -/
def reduced_labels (classes : List Nat) (examples_per_class : Nat) : List Nat :=
  (List.range (examples_per_class * classes.length)).map
    fun label => label / examples_per_class % 256

/-! ### Persistence helpers (util.py, save_assignments / save_accumulated_rates) -/

/-- Modelling os.path.join of a directory and a file name on a posix
system with a plain directory path. -/
def pathJoin (dir fname : PyStr) : PyStr := dir ++ '/' :: fname

/-- Embedding of util.py save_assignments: writes the assignments array
to one file named by joining "assignments", the ending and the
stringified suffix with underscores.  The result models the pair (file
written, payload serialized). -/
def save_assignments {α : Type} (weights_dir : PyStr) (assignments : α)
    (ending suffix : PyStr) : PyStr × α :=
  (pathJoin weights_dir (List.intercalate ['_'] ["assignments".data, ending, suffix]),
    assignments)

/-- Embedding of util.py save_accumulated_rates.  The source serializes
the free variable named assignments, not its accumulated_rates
parameter; the free variable is resolved in the enclosing (module or
interactive) scope at call time and is modelled here as the explicit
final parameter assignments.  The result models the pair (file written,
payload serialized). -/
def save_accumulated_rates {α : Type} (weights_dir : PyStr) (accumulated_rates : α)
    (ending suffix : PyStr) (assignments : α) : PyStr × α :=
  (pathJoin weights_dir
      (List.intercalate ['_'] ["accumulated_rates".data, ending, suffix]),
    assignments)

/-- C4: for every call of save_accumulated_rates, the serialized payload
is the value bound to the name assignments, and the result (file name
and payload alike) does not depend on the accumulated_rates argument. -/
theorem save_accumulated_rates_ignores_parameter {α : Type} (weights_dir : PyStr)
    (accumulated_rates : α) (ending suffix : PyStr) (assignments : α) :
    (save_accumulated_rates weights_dir accumulated_rates ending suffix assignments).2 =
        assignments ∧
      ∀ other : α,
        save_accumulated_rates weights_dir other ending suffix assignments =
          save_accumulated_rates weights_dir accumulated_rates ending suffix assignments :=
  ⟨rfl, fun _ => rfl⟩

/-- C7: on a cache miss, get_labeled_data raises the data-integrity error
exactly when the 4-byte big-endian image count of the image header
differs from the 4-byte big-endian label count of the label header, and
when it raises it returns no bundle and writes no cache entry. -/
theorem get_labeled_data_mismatch_iff (pickle_name : PyStr) (reduced : Bool)
    (classes : List Nat) (epc : Nat) (normalized : Bool)
    (cache : PyStr → Option MNISTData) (images labels : List Nat)
    (hmiss : cache (derive_pickle_name pickle_name reduced classes epc normalized) = none) :
    (get_labeled_data pickle_name reduced classes epc normalized cache images labels =
        .error mismatch_msg ↔ readBE32 images 4 ≠ readBE32 labels 4) ∧
      ∀ out, get_labeled_data pickle_name reduced classes epc normalized cache images
          labels = .error mismatch_msg →
        get_labeled_data pickle_name reduced classes epc normalized cache images labels ≠
          .ok out := by
  have hstep : get_labeled_data pickle_name reduced classes epc normalized cache images
      labels =
      if readBE32 images 4 ≠ readBE32 labels 4 then .error mismatch_msg
      else
        .ok (⟨(List.range (readBE32 labels 4)).map fun i =>
              (List.range (readBE32 images 8)).map fun r =>
                (List.range (readBE32 images 12)).map fun c =>
                  readByte images (16 + (i * readBE32 images 8 + r) * readBE32 images 12 + c),
            (List.range (readBE32 labels 4)).map fun i => readByte labels (8 + i),
            readBE32 images 8, readBE32 images 12⟩,
          some (derive_pickle_name pickle_name reduced classes epc normalized,
            ⟨(List.range (readBE32 labels 4)).map fun i =>
                (List.range (readBE32 images 8)).map fun r =>
                  (List.range (readBE32 images 12)).map fun c =>
                    readByte images (16 + (i * readBE32 images 8 + r) * readBE32 images 12 + c),
              (List.range (readBE32 labels 4)).map fun i => readByte labels (8 + i),
              readBE32 images 8, readBE32 images 12⟩)) := by
    simp only [get_labeled_data, hmiss]
  by_cases h : readBE32 images 4 ≠ readBE32 labels 4
  · rw [hstep, if_pos h]
    exact ⟨⟨fun _ => h, fun _ => rfl⟩, fun out _ hok => Except.noConfusion hok⟩
  · rw [hstep, if_neg h]
    exact ⟨⟨fun he => Except.noConfusion he, fun hne => absurd hne h⟩,
      fun out he => absurd he (fun hc => Except.noConfusion hc)⟩

/-- Witness for C7: a miss on an empty cache with an image header
announcing 2 images and a label header announcing 1 label raises the
data-integrity error. -/
theorem get_labeled_data_mismatch_witness :
    ((fun _ : PyStr => (none : Option MNISTData)) (derive_pickle_name [] false [] 0 false) =
        none) ∧
      get_labeled_data [] false [] 0 false (fun _ => none)
          [0, 0, 0, 0, 0, 0, 0, 2] [0, 0, 0, 0, 0, 0, 0, 1] = .error mismatch_msg :=
  ⟨rfl, (get_labeled_data_mismatch_iff [] false [] 0 false (fun _ => none)
      [0, 0, 0, 0, 0, 0, 0, 2] [0, 0, 0, 0, 0, 0, 0, 1] rfl).1.mpr (by decide)⟩

set_option maxRecDepth 8000 in
/-- C9 counterexample: with 257 requested classes and one example per
class, the synthesized label at position 256 is 0, not
floor(256 / 1) = 256: the array is created with dtype uint8, so the
synthesized values wrap mod 256. -/
theorem reduced_labels_wrap_at_256 :
    (reduced_labels (List.range 257) 1).getD 256 0 = 0 ∧
      ¬(reduced_labels (List.range 257) 1).getD 256 0 = 256 / 1 := by
  constructor
  · decide
  · decide

/-- C9 (amended): in reduced-dataset mode the synthesized label array,
before shuffling, has length examples_per_class * len(classes) and its
entry at every position k is floor(k / examples_per_class) reduced
mod 256 (dtype uint8), irrespective of the class ids themselves. -/
theorem reduced_labels_spec (classes : List Nat) (epc : Nat) :
    (reduced_labels classes epc).length = epc * classes.length ∧
      ∀ k, k < epc * classes.length →
        (reduced_labels classes epc).getD k 0 = k / epc % 256 := by
  constructor
  · simp [reduced_labels]
  · intro k hk
    unfold reduced_labels
    rw [List.getD_eq_getElem?_getD, List.getElem?_map, List.getElem?_range hk]
    rfl

/-- Witness for C9 (amended): two classes with two examples each; the
entry at position 3 is floor(3 / 2) = 1. -/
theorem reduced_labels_spec_witness :
    (3 : Nat) < 2 * 2 ∧ (reduced_labels [5, 9] 2).getD 3 0 = 3 / 2 % 256 :=
  ⟨by decide, (reduced_labels_spec [5, 9] 2).2 3 (by decide)⟩

/-! ### Invertibility test (util.py, is_invertible) -/

/-- Embedding of util.py is_invertible over real matrices: the test
a.shape[0] == a.shape[1] and matrix_rank(a) == a.shape[0], with numpy's
numerical rank modelled by the exact rank over the reals. -/
def is_invertible {m n : ℕ} (a : Matrix (Fin m) (Fin n) ℝ) : Prop :=
  m = n ∧ a.rank = m

/-- C8: is_invertible holds exactly when the matrix is square with full
rank; consequently it fails for every non-square matrix, fails for every
square matrix of deficient rank (in particular any singular square
matrix), and holds for the identity matrix of every size. -/
theorem is_invertible_characterization :
    (∀ (m n : ℕ) (a : Matrix (Fin m) (Fin n) ℝ),
        is_invertible a ↔ m = n ∧ a.rank = m) ∧
      (∀ (m n : ℕ) (a : Matrix (Fin m) (Fin n) ℝ), m ≠ n → ¬is_invertible a) ∧
      (∀ (n : ℕ) (a : Matrix (Fin n) (Fin n) ℝ), a.rank < n → ¬is_invertible a) ∧
      ∀ n : ℕ, is_invertible (1 : Matrix (Fin n) (Fin n) ℝ) := by
  refine ⟨fun m n a => Iff.rfl, fun m n a hmn h => hmn h.1, fun n a hr h => ?_, fun n => ?_⟩
  · exact absurd h.2 hr.ne
  · exact ⟨rfl, by simp [Matrix.rank_one]⟩

/-- Witness for C8: the 2x3 zero matrix is not invertible and the 4x4
identity matrix is. -/
theorem is_invertible_characterization_witness :
    ¬is_invertible (0 : Matrix (Fin 2) (Fin 3) ℝ) ∧
      is_invertible (1 : Matrix (Fin 4) (Fin 4) ℝ) :=
  ⟨is_invertible_characterization.2.1 2 3 0 (by decide),
    is_invertible_characterization.2.2.2 4⟩

/-! ### Nearest positive-definite projection (util.py, nearestPD / isPD)

The numerical routine is modelled over the exact reals.  numpy's
la.cholesky succeeds exactly on the positive-definite matrices among the
Hermitian ones, and every matrix the algorithm tests is symmetric by
construction, so isPD is modelled as positive-definiteness.  numpy's
la.svd of the symmetrised matrix B yields factors with
V.T @ diag(s) @ V equal to the positive-semidefinite square root of
Bᵀ B for every exact singular-value decomposition, so the symmetric
polar factor is modelled by that square root, which is well defined even
though the decomposition itself is not unique.  np.spacing(norm(A)) is a
strictly positive floating-point increment; it is modelled by an
arbitrary positive real parameter ε. -/

variable {d : Type} [Fintype d] [DecidableEq d]

/-- Embedding of util.py isPD: the Cholesky decomposition attempted by
the source succeeds exactly when the (symmetric) argument is positive
definite. -/
def isPD (B : Matrix d d ℝ) : Prop := B.PosDef

/-- The symmetric polar factor H = V.T @ diag(s) @ V computed by the
source from an SVD of B: equal to the positive-semidefinite square root
of Bᴴ B. -/
noncomputable def svd_polar (B : Matrix d d ℝ) : Matrix d d ℝ :=
  (Matrix.posSemidef_conjTranspose_mul_self B).sqrt

/-- Minimum real eigenvalue, modelling np.min(np.real(la.eigvals(M))).
Every matrix on which the source evaluates this is symmetric; on a
non-Hermitian argument (never produced by the algorithm) the model
returns 0. -/
noncomputable def minEig (M : Matrix d d ℝ) : ℝ :=
  if h : M.IsHermitian then ⨅ i, h.eigenvalues i else 0

/-- The candidate matrix A3 of util.py nearestPD: symmetrize the input
into B, add the symmetric polar factor H, halve, and re-symmetrize. -/
noncomputable def nearestPD_A3 (A : Matrix d d ℝ) : Matrix d d ℝ :=
  let B := (2⁻¹ : ℝ) • (A + Aᵀ)
  let H := svd_polar B
  let A2 := (2⁻¹ : ℝ) • (B + H)
  (2⁻¹ : ℝ) • (A2 + A2ᵀ)

open Classical in
/-- The while-loop of util.py nearestPD with an explicit fuel counter:
while the matrix is not Cholesky-decomposable, add
(-mineig * k^2 + spacing) times the identity and increment k.  Running
out of fuel returns none; the source loop has no fuel bound, and its
termination is part of claim C6. -/
noncomputable def pd_loop (ε : ℝ) : Nat → Nat → Matrix d d ℝ → Option (Matrix d d ℝ)
  | 0, _, _ => none
  | fuel + 1, k, M =>
    if isPD M then some M
    else pd_loop ε fuel (k + 1) (M + (-minEig M * (k : ℝ) ^ 2 + ε) • (1 : Matrix d d ℝ))

/-- Embedding of util.py nearestPD as a fuelled computation: the source
returns A3 immediately when it is Cholesky-decomposable (the check
before the loop and the loop guard coincide), else runs the correction
loop starting at k = 1. -/
noncomputable def nearestPD_run (ε : ℝ) (A : Matrix d d ℝ) (fuel : Nat) :
    Option (Matrix d d ℝ) :=
  pd_loop ε fuel 1 (nearestPD_A3 A)

open Classical in
/-- The value computed by util.py nearestPD in exact arithmetic: A3 when
it is already positive definite, else the first loop iterate, which is
already positive definite (the loop body at k = 1 shifts every
eigenvalue up to at least ε).  The link to the loop itself is proved in
the C6 theorem. -/
noncomputable def nearestPD (ε : ℝ) (A : Matrix d d ℝ) : Matrix d d ℝ :=
  let A3 := nearestPD_A3 A
  if isPD A3 then A3
  else A3 + (-minEig A3 * ((1 : Nat) : ℝ) ^ 2 + ε) • (1 : Matrix d d ℝ)

/-- Over the reals, conjugate transposition is transposition. -/
theorem real_conjTranspose {m k : Type} (M : Matrix m k ℝ) : Mᴴ = Mᵀ := by
  ext i j
  simp [Matrix.conjTranspose_apply]

/-- The symmetrisation used throughout nearestPD is Hermitian. -/
theorem half_add_transpose_isHermitian (X : Matrix d d ℝ) :
    ((2⁻¹ : ℝ) • (X + Xᵀ)).IsHermitian := by
  unfold Matrix.IsHermitian
  rw [Matrix.conjTranspose_smul, real_conjTranspose, Matrix.transpose_add,
    Matrix.transpose_transpose, add_comm]
  norm_num

/-- The candidate matrix A3 is Hermitian for every input. -/
theorem nearestPD_A3_isHermitian (A : Matrix d d ℝ) : (nearestPD_A3 A).IsHermitian := by
  simp only [nearestPD_A3]
  exact half_add_transpose_isHermitian _

/-- Conjugating a positive-definite matrix by a unitary matrix preserves
positive definiteness. -/
theorem posDef_conj_unitary {U : Matrix d d ℝ} (hU : U ∈ Matrix.unitaryGroup d ℝ)
    {D : Matrix d d ℝ} (hD : D.PosDef) : (U * D * star U).PosDef := by
  have hUU : U * star U = 1 := Matrix.mem_unitaryGroup_iff.mp hU
  constructor
  · show (U * D * star U)ᴴ = U * D * star U
    rw [Matrix.conjTranspose_mul, Matrix.conjTranspose_mul, Matrix.star_eq_conjTranspose,
      Matrix.conjTranspose_conjTranspose, hD.1.eq, Matrix.mul_assoc]
  · intro x hx
    have hy : star U *ᵥ x ≠ 0 := by
      intro h0
      apply hx
      have hxx : U *ᵥ (star U *ᵥ x) = x := by
        rw [Matrix.mulVec_mulVec, hUU, Matrix.one_mulVec]
      rw [h0, Matrix.mulVec_zero] at hxx
      exact hxx.symm
    have hrw : star x ⬝ᵥ ((U * D * star U) *ᵥ x) =
        star (star U *ᵥ x) ⬝ᵥ (D *ᵥ (star U *ᵥ x)) := by
      rw [← Matrix.mulVec_mulVec, ← Matrix.mulVec_mulVec, Matrix.dotProduct_mulVec]
      congr 1
      rw [Matrix.star_mulVec, Matrix.star_eq_conjTranspose,
        Matrix.conjTranspose_conjTranspose]
    rw [hrw]
    exact hD.2 _ hy

/-- Adding c times the identity to a Hermitian matrix whose eigenvalues
all exceed -c produces a positive-definite matrix. -/
theorem posDef_add_smul_one {M : Matrix d d ℝ} (hM : M.IsHermitian) {c : ℝ}
    (h : ∀ i, 0 < hM.eigenvalues i + c) : (M + c • (1 : Matrix d d ℝ)).PosDef := by
  have hspec := hM.spectral_theorem
  rw [RCLike.ofReal_real_eq_id, Function.id_comp] at hspec
  set U : Matrix d d ℝ := (Matrix.IsHermitian.eigenvectorUnitary hM : Matrix d d ℝ)
    with hUdef
  have hUmem : U ∈ Matrix.unitaryGroup d ℝ :=
    (Matrix.IsHermitian.eigenvectorUnitary hM).2
  have hUU : U * star U = 1 := Matrix.mem_unitaryGroup_iff.mp hUmem
  have hkey : M + c • (1 : Matrix d d ℝ) =
      U * Matrix.diagonal (fun i => hM.eigenvalues i + c) * star U := by
    have hid : c • (1 : Matrix d d ℝ) = U * (c • (1 : Matrix d d ℝ)) * star U := by
      rw [Matrix.mul_smul, Matrix.mul_one, Matrix.smul_mul, hUU]
    calc M + c • (1 : Matrix d d ℝ)
        = U * Matrix.diagonal hM.eigenvalues * star U +
            U * (c • (1 : Matrix d d ℝ)) * star U := by rw [← hspec, ← hid]
      _ = U * (Matrix.diagonal hM.eigenvalues + c • (1 : Matrix d d ℝ)) * star U := by
          rw [mul_add, add_mul]
      _ = U * Matrix.diagonal (fun i => hM.eigenvalues i + c) * star U := by
          rw [Matrix.smul_one_eq_diagonal, Matrix.diagonal_add]
  rw [hkey]
  exact posDef_conj_unitary hUmem (Matrix.PosDef.diagonal h)

/-- The modelled minimum eigenvalue bounds every eigenvalue of a
Hermitian matrix from below. -/
theorem minEig_le {M : Matrix d d ℝ} (hM : M.IsHermitian) (i : d) :
    minEig M ≤ hM.eigenvalues i := by
  unfold minEig
  rw [dif_pos hM]
  exact ciInf_le (Set.Finite.bddBelow (Set.finite_range _)) i

/-- C5: on a symmetric positive-definite input the projection is the
identity: B symmetrises to A itself, the symmetric polar factor of A is
A (the positive-semidefinite square root of A^2), so A3 = A, the
Cholesky check succeeds immediately, and A is returned, both as the
computed value and by the fuelled loop for every positive fuel. -/
theorem nearestPD_fixes_posdef (A : Matrix d d ℝ) (hsym : Aᵀ = A) (hpd : A.PosDef)
    (ε : ℝ) :
    nearestPD ε A = A ∧ ∀ fuel, 1 ≤ fuel → nearestPD_run ε A fuel = some A := by
  have hB : (2⁻¹ : ℝ) • (A + Aᵀ) = A := by
    rw [hsym, ← two_smul ℝ A, smul_smul]
    norm_num
  have hconj : Aᴴ = A := by rw [real_conjTranspose, hsym]
  have hsq : A ^ 2 = Aᴴ * A := by rw [hconj, sq]
  have hH : svd_polar A = A :=
    (hpd.posSemidef.eq_sqrt_of_sq_eq (Matrix.posSemidef_conjTranspose_mul_self A) hsq).symm
  have hAA : (2⁻¹ : ℝ) • (A + A) = A := by
    rw [← two_smul ℝ A, smul_smul]
    norm_num
  have hA3 : nearestPD_A3 A = A := by
    simp only [nearestPD_A3]
    rw [hB, hH, hAA, hB]
  constructor
  · simp only [nearestPD]
    rw [hA3, if_pos (show isPD A from hpd)]
  · intro fuel hfuel
    obtain ⟨f, rfl⟩ : ∃ f, fuel = f + 1 := ⟨fuel - 1, by omega⟩
    show pd_loop ε (f + 1) 1 (nearestPD_A3 A) = some A
    rw [hA3]
    simp only [pd_loop]
    rw [if_pos (show isPD A from hpd)]

/-- Witness for C5: the 1x1 identity matrix is symmetric positive
definite and is returned unchanged. -/
theorem nearestPD_fixes_posdef_witness :
    ((1 : Matrix (Fin 1) (Fin 1) ℝ)ᵀ = 1 ∧ (1 : Matrix (Fin 1) (Fin 1) ℝ).PosDef) ∧
      nearestPD 1 (1 : Matrix (Fin 1) (Fin 1) ℝ) = 1 :=
  ⟨⟨Matrix.transpose_one, Matrix.PosDef.one⟩,
    (nearestPD_fixes_posdef 1 Matrix.transpose_one Matrix.PosDef.one 1).1⟩

/-- C6: for every square real input A and every positive spacing ε, the
while-loop of nearestPD terminates (with fuel 2, hence with any larger
fuel, the fuelled loop returns a value rather than running out), and the
returned matrix passes the Cholesky-decomposability check isPD.  In
exact arithmetic at most one correction step is needed: when A3 is not
positive definite, adding (-mineig * 1^2 + ε) times the identity lifts
every eigenvalue of the symmetric matrix A3 to at least ε > 0. -/
theorem nearestPD_run_isPD (A : Matrix d d ℝ) (ε : ℝ) (hε : 0 < ε) :
    isPD (nearestPD ε A) ∧
      ∀ fuel, 2 ≤ fuel → nearestPD_run ε A fuel = some (nearestPD ε A) := by
  have hHerm : (nearestPD_A3 A).IsHermitian := nearestPD_A3_isHermitian A
  by_cases hpd : isPD (nearestPD_A3 A)
  · have hval : nearestPD ε A = nearestPD_A3 A := by
      simp only [nearestPD]
      rw [if_pos hpd]
    constructor
    · rw [hval]; exact hpd
    · intro fuel hfuel
      obtain ⟨f, rfl⟩ : ∃ f, fuel = f + 1 := ⟨fuel - 1, by omega⟩
      show pd_loop ε (f + 1) 1 (nearestPD_A3 A) = some (nearestPD ε A)
      simp only [pd_loop]
      rw [if_pos hpd, hval]
  · have hstep : (nearestPD_A3 A +
        (-minEig (nearestPD_A3 A) * ((1 : Nat) : ℝ) ^ 2 + ε) •
          (1 : Matrix d d ℝ)).PosDef := by
      apply posDef_add_smul_one hHerm
      intro i
      have hle := minEig_le hHerm i
      rw [Nat.cast_one]
      nlinarith [hle, hε]
    have hval : nearestPD ε A = nearestPD_A3 A +
        (-minEig (nearestPD_A3 A) * ((1 : Nat) : ℝ) ^ 2 + ε) • (1 : Matrix d d ℝ) := by
      simp only [nearestPD]
      rw [if_neg hpd]
    constructor
    · rw [hval]; exact hstep
    · intro fuel hfuel
      obtain ⟨f, rfl⟩ : ∃ f, fuel = f + 1 + 1 := ⟨fuel - 2, by omega⟩
      show pd_loop ε (f + 1 + 1) 1 (nearestPD_A3 A) = some (nearestPD ε A)
      simp only [pd_loop]
      rw [if_neg hpd, if_pos (show isPD (nearestPD_A3 A +
        (-minEig (nearestPD_A3 A) * ((1 : Nat) : ℝ) ^ 2 + ε) • (1 : Matrix d d ℝ))
        from hstep), hval]

/-- Witness for C6: spacing 1 is positive, and the projection of the 1x1
identity matrix passes the positive-definiteness check. -/
theorem nearestPD_run_isPD_witness :
    (0 : ℝ) < 1 ∧ isPD (nearestPD 1 (1 : Matrix (Fin 1) (Fin 1) ℝ)) :=
  ⟨by norm_num, (nearestPD_run_isPD (1 : Matrix (Fin 1) (Fin 1) ℝ) 1 (by norm_num)).1⟩

end LmSnn
